import Mathlib

/-!
Verification of the bin-based merge engine of `MergeContent.cpp`
(`org::apache::nifi::minifi::processors`).

The definitions below are a shallow embedding of the functions in
`src/extensions/libarchive/MergeContent.cpp`.  Flow files are records of
attribute maps (the byte payload is owned by an external content store and is
never inspected by the properties proved here, so only the attribute and
routing behaviour is modelled).  `std::map<std::string, std::string>` is
modelled as an association list with unique keys; the map is key-ordered in
the source, and the theorems that depend on ordering carry an explicit
key-sortedness hypothesis.  `std::stoi` is modelled faithfully, including
leading whitespace, an optional sign, greedy digit parsing with trailing
garbage ignored, and the `int` range check.
-/

namespace MergeContent

/-- An attribute map: the modelling of `std::map<std::string, std::string>`. -/
abbrev AttrMap := List (String × String)

/-- Key lookup in an attribute map (first matching key). -/
def lookupA : AttrMap → String → Option String
  | [], _ => none
  | (k', v) :: rest, k => if k' = k then some v else lookupA rest k

/-- A flow file, reduced to its attribute map (`core::FlowFile`).  The byte
payload is held by the external content store and never read by the
attribute-level and routing-level functions modelled here. -/
structure FlowFile where
  attrs : AttrMap
deriving DecidableEq, Repr

/-- `FlowFile::getAttribute`: `some value` when the key is present
(the C++ out-parameter is left untouched and `false` returned otherwise). -/
def getAttribute (f : FlowFile) (k : String) : Option String :=
  lookupA f.attrs k

/-- Modelled from the spec: the fragment metadata attribute names declared in
`BinFiles.h` (not under `src/`); §6 names them fragment identifier, fragment
count and fragment index.  The exact strings are immaterial to every claim;
only their distinctness is used. -/
def FRAGMENT_ID_ATTRIBUTE : String := "fragment.identifier"

/-- Modelled from the spec: see `FRAGMENT_ID_ATTRIBUTE`. -/
def FRAGMENT_COUNT_ATTRIBUTE : String := "fragment.count"

/-- Modelled from the spec: see `FRAGMENT_ID_ATTRIBUTE`. -/
def FRAGMENT_INDEX_ATTRIBUTE : String := "fragment.index"

/-- Modelled from the spec: `BinFiles::SEGMENT_ORIGINAL_FILENAME`, the
segment original filename attribute used in filename derivation (§4.5). -/
def SEGMENT_ORIGINAL_FILENAME : String := "segment.original.filename"

/-- Modelled from the spec: `core::SpecialFlowAttribute::FILENAME`. -/
def FILENAME_ATTRIBUTE : String := "filename"

/-- Modelled from the spec: `core::SpecialFlowAttribute::MIME_TYPE`. -/
def MIME_TYPE_ATTRIBUTE : String := "mime.type"

/-- Modelled from the spec (§6): the recognized Merge Strategy values declared
in `MergeContentOptions` (header not under `src/`).  Exact strings are
immaterial; only distinctness of the options is used. -/
def MERGE_STRATEGY_DEFRAGMENT : String := "Defragment"

/-- Modelled from the spec (§6): see `MERGE_STRATEGY_DEFRAGMENT`. -/
def MERGE_STRATEGY_BIN_PACK : String := "Bin-Packing"

/-- Modelled from the spec (§6): Merge Format values. -/
def MERGE_FORMAT_CONCAT_VALUE : String := "Concatenation"

/-- Modelled from the spec (§6): Merge Format values. -/
def MERGE_FORMAT_TAR_VALUE : String := "Tar"

/-- Modelled from the spec (§6): Merge Format values. -/
def MERGE_FORMAT_ZIP_VALUE : String := "Zip"

/-- Modelled from the spec (§6): Delimiter Strategy values. -/
def DELIMITER_STRATEGY_FILENAME : String := "Filename"

/-- Modelled from the spec (§6): Delimiter Strategy values. -/
def DELIMITER_STRATEGY_TEXT : String := "Text"

/-- Modelled from the spec (§6): Attribute Strategy values. -/
def ATTRIBUTE_STRATEGY_KEEP_COMMON : String := "Keep-Common"

/-- Modelled from the spec (§6): Attribute Strategy values. -/
def ATTRIBUTE_STRATEGY_KEEP_ALL_UNIQUE : String := "Keep-All-Unique"

/-- The whitespace characters accepted by `isspace` in the default locale,
skipped by `std::stoi` before the number. -/
def isSpaceChar (c : Char) : Bool :=
  c = ' ' || c = '\t' || c = '\n' || c = '\x0b' || c = '\x0c' || c = '\r'

/-- Value of a digit list read in base 10. -/
def digitsToNat (ds : List Char) : Nat :=
  ds.foldl (fun acc c => acc * 10 + (c.toNat - '0'.toNat)) 0

/-- `std::stoi` (base 10): skip leading whitespace, read an optional sign and
then a non-empty greedy run of decimal digits (trailing non-digits are
ignored); `none` when no digits follow (`std::invalid_argument`) or the value
leaves the `int` range (`std::out_of_range`). -/
def stoi (s : String) : Option Int :=
  let cs := s.data.dropWhile isSpaceChar
  let signAndRest : Int × List Char :=
    match cs with
    | '-' :: rest => (-1, rest)
    | '+' :: rest => (1, rest)
    | _ => (1, cs)
  let digits := signAndRest.2.takeWhile Char.isDigit
  if digits.isEmpty then none
  else
    let v : Int := signAndRest.1 * (digitsToNat digits : Int)
    if v < -(2 ^ 31) || v > 2 ^ 31 - 1 then none else some v

/-- The per-member body of the loop in `MergeContent::checkDefragment`:
the member carries the shared fragment identifier and fragment count strings
and a fragment index that parses to `idx` with `0 ≤ idx < c`. -/
def defragMemberOk (fragId fragCount : String) (c : Int) (flow : FlowFile) : Bool :=
  match getAttribute flow FRAGMENT_ID_ATTRIBUTE with
  | none => false
  | some v =>
    if v ≠ fragId then false
    else
      match getAttribute flow FRAGMENT_COUNT_ATTRIBUTE with
      | none => false
      | some cv =>
        if cv ≠ fragCount then false
        else
          match getAttribute flow FRAGMENT_INDEX_ATTRIBUTE with
          | none => false
          | some iv =>
            match stoi iv with
            | none => false
            | some idx => if idx < 0 || idx ≥ c then false else true

/-- `MergeContent::checkDefragment`: an empty bin fails; otherwise the front
member must carry a fragment identifier and a fragment count that `stoi`
parses, and every member must pass `defragMemberOk` against the front values. -/
def checkDefragment : List FlowFile → Bool
  | [] => false
  | front :: rest =>
    match getAttribute front FRAGMENT_ID_ATTRIBUTE with
    | none => false
    | some fragId =>
      match getAttribute front FRAGMENT_COUNT_ATTRIBUTE with
      | none => false
      | some fragCount =>
        match stoi fragCount with
        | none => false
        | some c => (front :: rest).all (defragMemberOk fragId fragCount c)

/-- The fragment index read by the sort comparator in
`MergeContent::processBin` (present and parseable for every member of a bin
that passed `checkDefragment`; the default `0` is never reached there). -/
def fragIndexD (f : FlowFile) : Int :=
  match getAttribute f FRAGMENT_INDEX_ATTRIBUTE with
  | some v => (stoi v).getD 0
  | none => 0

/-- The postcondition the C++ standard gives for the `std::sort` call of
`MergeContent::processBin`: the deque after the call is a permutation of the
deque before it, ordered by the comparator (ascending fragment index).
`std::sort` promises nothing else; in particular it does not promise
stability. -/
def sortPost (input output : List FlowFile) : Prop :=
  output.Perm input ∧ output.Pairwise (fun a b => fragIndexD a ≤ fragIndexD b)

/-- `KeepOnlyCommonAttributesMerger::processFlowFile`: `std::set_intersection`
of the key-ordered accumulated map with the key-ordered attribute map of the
next member, comparing (key, value) pairs. -/
def kcStep (merged : AttrMap) (flowAttrs : AttrMap) : AttrMap :=
  merged.filter (fun p => decide (p ∈ flowAttrs))

/-- `AttributeMerger::getMergedAttributes` for the Keep-Only-Common merger:
empty bin gives the empty map, otherwise the fold is seeded with the front
member attribute map and the remaining members are folded in order. -/
def kcMerged : List FlowFile → AttrMap
  | [] => []
  | f :: rest => rest.foldl (fun acc g => kcStep acc g.attrs) f.attrs

/-- Remove every entry with key `k` (`std::map::erase` of the entry found for
`k`; keys are unique in a `std::map`, so the filter form agrees with erasing
the single found entry). -/
def merase (m : AttrMap) (k : String) : AttrMap :=
  m.filter (fun p => decide (p.1 ≠ k))

/-- The state of `KeepAllUniqueAttributesMerger`: the accumulated map and the
`removed_attributes_` exclusion list. -/
structure KAUState where
  merged : AttrMap
  removed : List String
deriving DecidableEq, Repr

/-- One iteration of the loop in
`KeepAllUniqueAttributesMerger::processFlowFile`: keys in
`removed_attributes_` are skipped; `std::map::insert` adds the pair when the
key is absent and otherwise leaves the map unchanged, and on a value conflict
the entry is erased and the key appended to `removed_attributes_`. -/
def kauStep (st : KAUState) (attr : String × String) : KAUState :=
  if st.removed.contains attr.1 then st
  else
    match lookupA st.merged attr.1 with
    | none => { st with merged := st.merged ++ [attr] }
    | some v =>
      if v = attr.2 then st
      else { merged := merase st.merged attr.1, removed := st.removed ++ [attr.1] }

/-- `KeepAllUniqueAttributesMerger::processFlowFile`: fold `kauStep` over the
member attribute map (iterated in `std::map` key order; the fold is stated
on the attribute list as given). -/
def kauProcessFlow (st : KAUState) (f : FlowFile) : KAUState :=
  f.attrs.foldl kauStep st

/-- The `std::accumulate` loop of `AttributeMerger::getMergedAttributes`,
running the per-member step from a given state. -/
def kauRun (flows : List FlowFile) (st : KAUState) : KAUState :=
  flows.foldl kauProcessFlow st

/-- `AttributeMerger::getMergedAttributes` for the Keep-All-Unique merger:
empty bin gives the empty map; otherwise the state is seeded with the front
member attribute map and an empty exclusion list and the remaining members
are folded in order. -/
def kauMerged : List FlowFile → AttrMap
  | [] => []
  | f :: rest => (kauRun rest ⟨f.attrs, []⟩).merged

/-- `ProcessSession::putAttribute` on the merge flow (`FlowFile::setAttribute`
in the session code, which is not under `src/`): overwrite the value when the
key is present, insert otherwise. -/
def mput : AttrMap → String → String → AttrMap
  | [], k, v => [(k, v)]
  | (k', v') :: rest, k, v =>
    if k' = k then (k, v) :: rest else (k', v') :: mput rest k v

/-- The attribute effects of `BinaryConcatenationMerge::merge` on the merge
flow: put the octet-stream mime type; derive the file name from the single
member filename attribute or the front member segment original filename
attribute (the local starts empty and `getAttribute` leaves it untouched when
the key is absent); put it only when non-empty.  Byte assembly goes through
`session->write` and is outside the attribute model. -/
def concatMergeAttrs : List FlowFile → AttrMap → AttrMap
  | [], m => mput m MIME_TYPE_ATTRIBUTE "application/octet-stream"
  | front :: rest, m =>
    let m₁ := mput m MIME_TYPE_ATTRIBUTE "application/octet-stream"
    let fileName :=
      if (front :: rest).length == 1 then (getAttribute front FILENAME_ATTRIBUTE).getD ""
      else (getAttribute front SEGMENT_ORIGINAL_FILENAME).getD ""
    if fileName ≠ "" then mput m₁ FILENAME_ATTRIBUTE fileName else m₁

/-- The attribute effects of `TarMerge::merge` and `ZipMerge::merge`, which
differ only in mime type and suffix: put the mime type; seed the file name
from the filename attribute already present on the merge flow (already populated by the
attribute merger), overwrite it from the single member filename attribute
or the front member segment original filename attribute when present; when
the resulting name is non-empty, append the suffix and put it. -/
def archiveMergeAttrs (mime suffix : String) : List FlowFile → AttrMap → AttrMap
  | [], m => mput m MIME_TYPE_ATTRIBUTE mime
  | front :: rest, m =>
    let m₁ := mput m MIME_TYPE_ATTRIBUTE mime
    let fileName₀ := (lookupA m₁ FILENAME_ATTRIBUTE).getD ""
    let fileName :=
      if (front :: rest).length == 1 then (getAttribute front FILENAME_ATTRIBUTE).getD fileName₀
      else (getAttribute front SEGMENT_ORIGINAL_FILENAME).getD fileName₀
    if fileName ≠ "" then mput m₁ FILENAME_ATTRIBUTE (fileName ++ suffix) else m₁

/-- `TarMerge::merge` attribute effects. -/
def tarMergeAttrs (flows : List FlowFile) (m : AttrMap) : AttrMap :=
  archiveMergeAttrs "application/tar" ".tar" flows m

/-- `ZipMerge::merge` attribute effects. -/
def zipMergeAttrs (flows : List FlowFile) (m : AttrMap) : AttrMap :=
  archiveMergeAttrs "application/zip" ".zip" flows m

/-- `MergeContent::getGroupId`: the correlation attribute value when the
correlation attribute name is configured and the attribute is present; when
the group id is still empty and the strategy is Defragment, the fragment
identifier attribute value when present. -/
def getGroupId (correlationAttributeName mergeStrategy : String) (flow : FlowFile) : String :=
  let groupId :=
    if correlationAttributeName ≠ "" then
      match getAttribute flow correlationAttributeName with
      | some v => v
      | none => ""
    else ""
  if groupId = "" ∧ mergeStrategy = MERGE_STRATEGY_DEFRAGMENT then
    match getAttribute flow FRAGMENT_ID_ATTRIBUTE with
    | some v => v
    | none => groupId
  else groupId

/-- `MergeContent::validatePropertyOptions`: the first unrecognized of the
four strategy options throws `minifi::Exception` (the merge strategy message
interpolates `attributeStrategy_`, as the source does); with all four
recognized nothing is thrown. -/
def validatePropertyOptions (ms mf ds as : String) : Except String Unit :=
  if ms ≠ MERGE_STRATEGY_DEFRAGMENT ∧ ms ≠ MERGE_STRATEGY_BIN_PACK then
    .error ("Invalid merge strategy: " ++ as)
  else if mf ≠ MERGE_FORMAT_CONCAT_VALUE ∧ mf ≠ MERGE_FORMAT_TAR_VALUE ∧
      mf ≠ MERGE_FORMAT_ZIP_VALUE then
    .error ("Invalid merge format: " ++ mf)
  else if ds ≠ DELIMITER_STRATEGY_FILENAME ∧ ds ≠ DELIMITER_STRATEGY_TEXT then
    .error ("Invalid delimiter strategy: " ++ ds)
  else if as ≠ ATTRIBUTE_STRATEGY_KEEP_COMMON ∧ as ≠ ATTRIBUTE_STRATEGY_KEEP_ALL_UNIQUE then
    .error ("Invalid attribute strategy: " ++ as)
  else .ok ()

/-- The configuration snapshot fields of `MergeContent` used by
`processBin` (header, footer and demarcator only shape the byte output, which
is outside the attribute and routing model). -/
structure Config where
  mergeStrategy : String
  mergeFormat : String
  attributeStrategy : String
deriving DecidableEq, Repr

/-- A bin handed to `processBin` (the `Bin` class lives in `BinFiles.h`,
which is not under `src/`): the append-ordered member deque. -/
structure Bin where
  flows : List FlowFile
deriving DecidableEq, Repr

/-- Modelled from the spec: `Bin::getSize` (declared in `BinFiles.h`, not
under `src/`); §3 and §6 record that the attribute derived from it on every
MergeResult is the originating bin member count. -/
def Bin.getSize (b : Bin) : Nat :=
  b.flows.length

/-- A flow routed by `processBin`: the synthesized merge flow or one of the
consumed members. -/
inductive TargetFlow
  | mergeResult
  | member (f : FlowFile)
deriving DecidableEq, Repr

/-- The outbound relationships of the processor. -/
inductive Rel
  | merged
  | original
  | failure
deriving DecidableEq, Repr

/-- The observable outcome of one `processBin` call: the returned Bool, the
`session->transfer` calls made, and the attribute map accumulated on the
merge flow. -/
structure ProcessBinResult where
  ok : Bool
  transfers : List (TargetFlow × Rel)
  mergeAttrs : AttrMap
deriving DecidableEq, Repr

/-- The attribute-strategy dispatch of `processBin`: the merger whose
`mergeAttributes` populates the fresh merge flow, `none` for the unsupported
branch that logs and returns false. -/
def mergedAttrsFor (as : String) (flows' : List FlowFile) : Option AttrMap :=
  if as = ATTRIBUTE_STRATEGY_KEEP_COMMON then some (kcMerged flows')
  else if as = ATTRIBUTE_STRATEGY_KEEP_ALL_UNIQUE then some (kauMerged flows')
  else none

/-- The merge-format dispatch of `processBin`: attribute effects of the
selected `MergeBin::merge` on the merge flow. -/
def formatAttrs (mf : String) (flows' : List FlowFile) (ma : AttrMap) : AttrMap :=
  if mf = MERGE_FORMAT_CONCAT_VALUE then concatMergeAttrs flows' ma
  else if mf = MERGE_FORMAT_TAR_VALUE then tarMergeAttrs flows' ma
  else zipMergeAttrs flows' ma

/-- The body of `MergeContent::processBin` after the in-place `std::sort`
(whose outcome `flows'` stands for the deque content at merge time; on the
Bin-Packing path it equals the original deque).  `ioFail` is whether
`session->write` inside `MergeBin::merge` throws; on that path the catch
block returns `false` with no transfer made. -/
def processBinWith (cfg : Config) (bin : Bin) (flows' : List FlowFile) (ioFail : Bool) :
    ProcessBinResult :=
  if cfg.mergeStrategy ≠ MERGE_STRATEGY_DEFRAGMENT ∧
      cfg.mergeStrategy ≠ MERGE_STRATEGY_BIN_PACK then
    ⟨false, [], []⟩
  else if cfg.mergeStrategy = MERGE_STRATEGY_DEFRAGMENT ∧ ¬checkDefragment bin.flows then
    ⟨false, [], []⟩
  else
    match mergedAttrsFor cfg.attributeStrategy flows' with
    | none => ⟨false, [], []⟩
    | some ma =>
      if cfg.mergeFormat ≠ MERGE_FORMAT_CONCAT_VALUE ∧
          cfg.mergeFormat ≠ MERGE_FORMAT_TAR_VALUE ∧
          cfg.mergeFormat ≠ MERGE_FORMAT_ZIP_VALUE then
        ⟨false, [], ma⟩
      else if ioFail then ⟨false, [], ma⟩
      else
        let ma₃ := mput (formatAttrs cfg.mergeFormat flows' ma) FRAGMENT_COUNT_ATTRIBUTE
          (toString bin.getSize)
        ⟨true,
         (TargetFlow.mergeResult, Rel.merged) ::
           flows'.map (fun f => (TargetFlow.member f, Rel.original)),
         ma₃⟩

/-- `MergeContent::processBin` as a relation: on the Defragment path with a
valid bin the deque is sorted in place by `std::sort`, whose outcome is any
list satisfying `sortPost`; on every other path the deque is untouched. -/
def ProcessBinRel (cfg : Config) (bin : Bin) (ioFail : Bool) (res : ProcessBinResult) : Prop :=
  ∃ flows',
    (if cfg.mergeStrategy = MERGE_STRATEGY_DEFRAGMENT ∧ checkDefragment bin.flows = true then
      sortPost bin.flows flows'
    else flows' = bin.flows) ∧
    res = processBinWith cfg bin flows' ioFail

/-- Modelled from the spec: the caller in `BinFiles.cpp` (not under `src/`);
§4.5 and §7 state that when a handed-off bin fails to merge, every consumed
member is routed to failure and the bin is never re-offered or retried. -/
def routeBinOnFailure (bin : Bin) (res : ProcessBinResult) : List (TargetFlow × Rel) :=
  res.transfers ++
    (if res.ok then [] else bin.flows.map (fun f => (TargetFlow.member f, Rel.failure)))

theorem defragMemberOk_iff (fragId fragCount : String) (c : Int) (f : FlowFile) :
    defragMemberOk fragId fragCount c f = true ↔
      getAttribute f FRAGMENT_ID_ATTRIBUTE = some fragId ∧
      getAttribute f FRAGMENT_COUNT_ATTRIBUTE = some fragCount ∧
      ∃ iv idx, getAttribute f FRAGMENT_INDEX_ATTRIBUTE = some iv ∧
        stoi iv = some idx ∧ 0 ≤ idx ∧ idx < c := by
  unfold defragMemberOk
  rcases hid : getAttribute f FRAGMENT_ID_ATTRIBUTE with _ | v
  · simp
  · rcases hcv : getAttribute f FRAGMENT_COUNT_ATTRIBUTE with _ | cv
    · simp
    · rcases hiv : getAttribute f FRAGMENT_INDEX_ATTRIBUTE with _ | iv
      · by_cases h₁ : v = fragId <;> by_cases h₂ : cv = fragCount <;> simp [h₁, h₂]
      · rcases hsi : stoi iv with _ | idx
        · by_cases h₁ : v = fragId <;> by_cases h₂ : cv = fragCount <;>
            simp [h₁, h₂, hsi]
        · by_cases h₁ : v = fragId <;> by_cases h₂ : cv = fragCount <;>
            simp [h₁, h₂, hsi, not_or, not_lt, not_le, and_comm]

/-- C2: for every non-empty bin, `checkDefragment` succeeds exactly when all
members share one fragment identifier, share one fragment count string that
parses (`std::stoi`) to a non-negative integer, and each carries a fragment
index that parses to a non-negative integer strictly below the shared count;
any missing attribute or parse failure makes it fail. -/
theorem checkDefragment_iff (flows : List FlowFile) (h : flows ≠ []) :
    checkDefragment flows = true ↔
      ∃ fid fcnt c, stoi fcnt = some c ∧ 0 ≤ c ∧
        (∀ f ∈ flows, getAttribute f FRAGMENT_ID_ATTRIBUTE = some fid) ∧
        (∀ f ∈ flows, getAttribute f FRAGMENT_COUNT_ATTRIBUTE = some fcnt) ∧
        (∀ f ∈ flows, ∃ iv idx, getAttribute f FRAGMENT_INDEX_ATTRIBUTE = some iv ∧
          stoi iv = some idx ∧ 0 ≤ idx ∧ idx < c) := by
  match flows with
  | [] => exact absurd rfl h
  | front :: rest =>
    constructor
    · intro hchk
      simp only [checkDefragment] at hchk
      split at hchk
      · exact absurd hchk (by decide)
      next fid hid =>
        split at hchk
        · exact absurd hchk (by decide)
        next fcnt hcv =>
          split at hchk
          · exact absurd hchk (by decide)
          next c hsc =>
            rw [List.all_eq_true] at hchk
            have hmem : ∀ f ∈ front :: rest,
                getAttribute f FRAGMENT_ID_ATTRIBUTE = some fid ∧
                getAttribute f FRAGMENT_COUNT_ATTRIBUTE = some fcnt ∧
                ∃ iv idx, getAttribute f FRAGMENT_INDEX_ATTRIBUTE = some iv ∧
                  stoi iv = some idx ∧ 0 ≤ idx ∧ idx < c :=
              fun f hf => (defragMemberOk_iff fid fcnt c f).mp (hchk f hf)
            have hfront := hmem front (List.mem_cons_self front rest)
            obtain ⟨_, _, iv, idx, _, _, h0, hlt⟩ := hfront
            exact ⟨fid, fcnt, c, hsc, le_of_lt (lt_of_le_of_lt h0 hlt),
              fun f hf => (hmem f hf).1, fun f hf => (hmem f hf).2.1,
              fun f hf => (hmem f hf).2.2⟩
    · rintro ⟨fid, fcnt, c, hsc, _, hids, hcnts, hidx⟩
      simp only [checkDefragment]
      rw [hids front (List.mem_cons_self front rest),
        hcnts front (List.mem_cons_self front rest)]
      simp only [hsc]
      rw [List.all_eq_true]
      intro f hf
      exact (defragMemberOk_iff fid fcnt c f).mpr ⟨hids f hf, hcnts f hf, hidx f hf⟩

/-- Witness for `checkDefragment_iff` at a concrete one-member bin. -/
theorem checkDefragment_iff_witness :
    (([⟨[("fragment.count", "1"), ("fragment.identifier", "a"),
        ("fragment.index", "0")]⟩] : List FlowFile) ≠ []) ∧
      (checkDefragment [⟨[("fragment.count", "1"), ("fragment.identifier", "a"),
        ("fragment.index", "0")]⟩] = true ↔
        ∃ fid fcnt c, stoi fcnt = some c ∧ 0 ≤ c ∧
          (∀ f ∈ ([⟨[("fragment.count", "1"), ("fragment.identifier", "a"),
            ("fragment.index", "0")]⟩] : List FlowFile),
            getAttribute f FRAGMENT_ID_ATTRIBUTE = some fid) ∧
          (∀ f ∈ ([⟨[("fragment.count", "1"), ("fragment.identifier", "a"),
            ("fragment.index", "0")]⟩] : List FlowFile),
            getAttribute f FRAGMENT_COUNT_ATTRIBUTE = some fcnt) ∧
          (∀ f ∈ ([⟨[("fragment.count", "1"), ("fragment.identifier", "a"),
            ("fragment.index", "0")]⟩] : List FlowFile),
            ∃ iv idx, getAttribute f FRAGMENT_INDEX_ATTRIBUTE = some iv ∧
              stoi iv = some idx ∧ 0 ≤ idx ∧ idx < c)) :=
  ⟨by decide, checkDefragment_iff _ (by decide)⟩

/-- C9: `validatePropertyOptions` throws nothing exactly when all four
strategy options hold recognized values; an unrecognized value for any of
them raises the exception, so `onSchedule` (which calls it before finishing
activation) refuses to start rather than running with a guessed default. -/
theorem validatePropertyOptions_ok_iff (ms mf ds as : String) :
    validatePropertyOptions ms mf ds as = .ok () ↔
      (ms = MERGE_STRATEGY_DEFRAGMENT ∨ ms = MERGE_STRATEGY_BIN_PACK) ∧
      (mf = MERGE_FORMAT_CONCAT_VALUE ∨ mf = MERGE_FORMAT_TAR_VALUE ∨
        mf = MERGE_FORMAT_ZIP_VALUE) ∧
      (ds = DELIMITER_STRATEGY_FILENAME ∨ ds = DELIMITER_STRATEGY_TEXT) ∧
      (as = ATTRIBUTE_STRATEGY_KEEP_COMMON ∨
        as = ATTRIBUTE_STRATEGY_KEEP_ALL_UNIQUE) := by
  unfold validatePropertyOptions
  split_ifs with h1 h2 h3 h4 <;> simp_all [not_and_or, not_not] <;> tauto

/-- The correlation-bearing flow refuting the Defragment half of C5. -/
def corrFlow : FlowFile :=
  ⟨[("corr", "X"), ("fragment.identifier", "Y")]⟩

/-- C5 counterexample: under Defragment with a configured correlation
attribute, `getGroupId` returns the correlation attribute value, not the
fragment identifier value the claim promises. -/
theorem getGroupId_defrag_counterexample :
    getAttribute corrFlow FRAGMENT_ID_ATTRIBUTE = some "Y" ∧
    getGroupId "corr" MERGE_STRATEGY_DEFRAGMENT corrFlow = "X" ∧
    ("X" : String) ≠ "Y" := by decide

/-- The amended grouping rule of C5: the correlation attribute (configured,
present, non-empty value) takes precedence under both strategies; only when
it yields nothing does Defragment fall back to the fragment identifier
attribute (empty when absent), and Bin-Packing to the shared empty group id. -/
def groupIdAmended (corr strat : String) (flow : FlowFile) : String :=
  let corrVal := if corr = "" then "" else (getAttribute flow corr).getD ""
  if corrVal ≠ "" then corrVal
  else if strat = MERGE_STRATEGY_DEFRAGMENT then
    (getAttribute flow FRAGMENT_ID_ATTRIBUTE).getD ""
  else ""

/-- C5 amended: `getGroupId` is a deterministic function of the flow unit
attributes and the configuration equal to `groupIdAmended`; in particular
under Bin-Packing it is the correlation attribute value when configured,
present and non-empty and the shared empty group id otherwise, and under
Defragment the fragment identifier value is used only when the correlation
lookup produced nothing. -/
theorem getGroupId_eq_amended (corr strat : String) (flow : FlowFile) :
    getGroupId corr strat flow = groupIdAmended corr strat flow := by
  unfold getGroupId groupIdAmended
  by_cases hc : corr = ""
  · by_cases hs : strat = MERGE_STRATEGY_DEFRAGMENT <;>
      rcases hf : getAttribute flow FRAGMENT_ID_ATTRIBUTE with _ | w <;>
      simp [hc, hs, hf]
  · rcases ha : getAttribute flow corr with _ | v
    · by_cases hs : strat = MERGE_STRATEGY_DEFRAGMENT <;>
        rcases hf : getAttribute flow FRAGMENT_ID_ATTRIBUTE with _ | w <;>
        simp [hc, ha, hs, hf]
    · by_cases hv : v = ""
      · by_cases hs : strat = MERGE_STRATEGY_DEFRAGMENT <;>
          rcases hf : getAttribute flow FRAGMENT_ID_ATTRIBUTE with _ | w <;>
          simp [hc, ha, hv, hs, hf]
      · simp [hc, ha, hv]

/-- C10: `AttributeMerger::getMergedAttributes` is total for both mergers: an
empty member sequence yields the empty map (the front of the sequence is
never read), a singleton yields the first member map unchanged, and a
non-empty sequence starts from the first member map and folds the remaining
members in sequence order. -/
theorem getMergedAttributes_total :
    kcMerged [] = [] ∧ kauMerged [] = [] ∧
    (∀ f : FlowFile, kcMerged [f] = f.attrs ∧ kauMerged [f] = f.attrs) ∧
    (∀ (f : FlowFile) (rest : List FlowFile),
      kcMerged (f :: rest) = rest.foldl (fun acc g => kcStep acc g.attrs) f.attrs ∧
      kauMerged (f :: rest) = (kauRun rest ⟨f.attrs, []⟩).merged) :=
  ⟨rfl, rfl, fun _ => ⟨rfl, rfl⟩, fun _ _ => ⟨rfl, rfl⟩⟩

theorem lookupA_append_of_none {m : AttrMap} {k : String} (p : String × String)
    (h : lookupA m k = none) :
    lookupA (m ++ [p]) k = lookupA [p] k := by
  induction m with
  | nil => rfl
  | cons q rest ih =>
    rcases q with ⟨k', v⟩
    by_cases hq : k' = k
    · simp [lookupA, hq] at h
    · simp only [List.cons_append, lookupA, if_neg hq] at h ⊢
      exact ih h

theorem lookupA_merase_self (m : AttrMap) (k : String) :
    lookupA (merase m k) k = none := by
  induction m with
  | nil => rfl
  | cons q rest ih =>
    rcases q with ⟨k1, v⟩
    by_cases h : k1 = k
    · simpa [merase, List.filter_cons, h] using ih
    · simpa [merase, List.filter_cons, h, lookupA] using ih

theorem lookupA_merase_ne (m : AttrMap) {k k' : String} (h : k' ≠ k) :
    lookupA (merase m k') k = lookupA m k := by
  induction m with
  | nil => rfl
  | cons q rest ih =>
    rcases q with ⟨k1, v⟩
    by_cases h1 : k1 = k'
    · rw [h1]
      calc lookupA (merase ((k', v) :: rest) k') k
          = lookupA (merase rest k') k := by simp [merase, List.filter_cons]
        _ = lookupA rest k := ih
        _ = lookupA ((k', v) :: rest) k := by simp [lookupA, h]
    · have hd : merase ((k1, v) :: rest) k' = (k1, v) :: merase rest k' := by
        simp [merase, List.filter_cons, h1]
      rw [hd]
      by_cases h2 : k1 = k
      · simp [lookupA, h2]
      · simp [lookupA, h2, ih]

/-- The running invariant of `KeepAllUniqueAttributesMerger`: every key in
`removed_attributes_` is absent from the accumulated map. -/
def kauInvariant (st : KAUState) : Prop :=
  ∀ k ∈ st.removed, lookupA st.merged k = none

theorem kauStep_preserves (st : KAUState) (a : String × String) (k : String)
    (hrem : k ∈ st.removed) (hlook : lookupA st.merged k = none) :
    k ∈ (kauStep st a).removed ∧ lookupA (kauStep st a).merged k = none := by
  unfold kauStep
  by_cases hc : st.removed.contains a.1
  · simp only [if_pos hc]
    exact ⟨hrem, hlook⟩
  · simp only [if_neg hc]
    have hne : a.1 ≠ k := by
      intro he
      exact hc (List.elem_iff.mpr (he ▸ hrem))
    cases hl : lookupA st.merged a.1 with
    | none =>
      refine ⟨hrem, ?_⟩
      rw [lookupA_append_of_none a hlook]
      simp [lookupA, hne]
    | some v =>
      by_cases hv : v = a.2
      · simp only [if_pos hv]
        exact ⟨hrem, hlook⟩
      · simp only [if_neg hv]
        exact ⟨List.mem_append_left _ hrem, by rw [lookupA_merase_ne _ hne]; exact hlook⟩

theorem kauFoldAttrs_preserves (l : List (String × String)) (st : KAUState) (k : String)
    (hrem : k ∈ st.removed) (hlook : lookupA st.merged k = none) :
    k ∈ (l.foldl kauStep st).removed ∧ lookupA (l.foldl kauStep st).merged k = none := by
  induction l generalizing st with
  | nil => exact ⟨hrem, hlook⟩
  | cons a t ih =>
    have h := kauStep_preserves st a k hrem hlook
    exact ih (kauStep st a) h.1 h.2

theorem kauRun_preserves (flows : List FlowFile) (st : KAUState) (k : String)
    (hrem : k ∈ st.removed) (hlook : lookupA st.merged k = none) :
    k ∈ (kauRun flows st).removed ∧ lookupA (kauRun flows st).merged k = none := by
  induction flows generalizing st with
  | nil => exact ⟨hrem, hlook⟩
  | cons f t ih =>
    have h := kauFoldAttrs_preserves f.attrs st k hrem hlook
    exact ih (kauProcessFlow st f) h.1 h.2

theorem kauStep_invariant (st : KAUState) (a : String × String)
    (h : kauInvariant st) : kauInvariant (kauStep st a) := by
  intro k hk
  unfold kauStep at hk ⊢
  by_cases hc : st.removed.contains a.1
  · simp only [if_pos hc] at hk ⊢
    exact h k hk
  · simp only [if_neg hc] at hk ⊢
    have hane : ∀ k', k' ∈ st.removed → a.1 ≠ k' := by
      intro k' hk' he
      exact hc (List.elem_iff.mpr (he ▸ hk'))
    cases hl : lookupA st.merged a.1 with
    | none =>
      simp only [hl] at hk ⊢
      rw [lookupA_append_of_none a (h k hk)]
      simp [lookupA, hane k hk]
    | some v =>
      simp only [hl] at hk ⊢
      by_cases hv : v = a.2
      · simp only [if_pos hv] at hk ⊢
        exact h k hk
      · simp only [if_neg hv] at hk ⊢
        rcases List.mem_append.mp hk with hk' | hk'
        · rw [lookupA_merase_ne _ (hane k hk')]
          exact h k hk'
        · have : k = a.1 := by simpa using hk'
          subst this
          exact lookupA_merase_self _ _

theorem kauFoldAttrs_invariant (l : List (String × String)) (st : KAUState)
    (h : kauInvariant st) : kauInvariant (l.foldl kauStep st) := by
  induction l generalizing st with
  | nil => exact h
  | cons a t ih => exact ih (kauStep st a) (kauStep_invariant st a h)

theorem kauRun_invariant (flows : List FlowFile) (st : KAUState)
    (h : kauInvariant st) : kauInvariant (kauRun flows st) := by
  induction flows generalizing st with
  | nil => exact h
  | cons f t ih => exact ih (kauProcessFlow st f) (kauFoldAttrs_invariant f.attrs st h)

/-- C3: under Keep-All-Unique, exclusion is monotonic: once a key enters the
exclusion list while processing a prefix of the member sequence, it is still
excluded after every continuation of the sequence and is absent from the
final merged attribute map, whatever values later members carry for it. -/
theorem kau_exclusion_monotonic (f : FlowFile) (pre more : List FlowFile) (k : String)
    (h : k ∈ (kauRun pre ⟨f.attrs, []⟩).removed) :
    k ∈ (kauRun (pre ++ more) ⟨f.attrs, []⟩).removed ∧
    lookupA (kauMerged (f :: (pre ++ more))) k = none := by
  have hinv : kauInvariant (kauRun pre ⟨f.attrs, []⟩) :=
    kauRun_invariant pre ⟨f.attrs, []⟩ (fun k' hk' => absurd hk' (List.not_mem_nil k'))
  have hstep := kauRun_preserves more (kauRun pre ⟨f.attrs, []⟩) k h (hinv k h)
  have happ : kauRun (pre ++ more) ⟨f.attrs, []⟩ =
      kauRun more (kauRun pre ⟨f.attrs, []⟩) := List.foldl_append ..
  rw [kauMerged, happ]
  exact ⟨hstep.1, hstep.2⟩

/-- Witness for `kau_exclusion_monotonic`: key a is excluded after a value
conflict and never returns even though a later member repeats the seed value. -/
theorem kau_exclusion_monotonic_witness :
    ("a" ∈ (kauRun [⟨[("a", "2")]⟩] ⟨(⟨[("a", "1")]⟩ : FlowFile).attrs, []⟩).removed) ∧
      ("a" ∈ (kauRun ([⟨[("a", "2")]⟩] ++ [⟨[("a", "1")]⟩])
          ⟨(⟨[("a", "1")]⟩ : FlowFile).attrs, []⟩).removed ∧
        lookupA (kauMerged ((⟨[("a", "1")]⟩ : FlowFile) ::
          ([⟨[("a", "2")]⟩] ++ [⟨[("a", "1")]⟩]))) "a" = none) :=
  ⟨by decide, kau_exclusion_monotonic ⟨[("a", "1")]⟩ [⟨[("a", "2")]⟩] [⟨[("a", "1")]⟩] "a"
    (by decide)⟩

/-- Key-strict order on attribute entries: the `std::map` invariant that
entries are strictly increasing by key. -/
abbrev keyLT (p q : String × String) : Prop := p.1 < q.1

instance : IsAntisymm (String × String) keyLT :=
  ⟨fun _ _ h h' => absurd (lt_trans h h') (lt_irrefl _)⟩

theorem mem_kcStep (acc attrs : AttrMap) (p : String × String) :
    p ∈ kcStep acc attrs ↔ p ∈ acc ∧ p ∈ attrs := by
  simp [kcStep, List.mem_filter]

theorem mem_kcFold (rest : List FlowFile) (acc : AttrMap) (p : String × String) :
    p ∈ rest.foldl (fun acc g => kcStep acc g.attrs) acc ↔
      p ∈ acc ∧ ∀ g ∈ rest, p ∈ g.attrs := by
  induction rest generalizing acc with
  | nil => simp
  | cons g t ih =>
    rw [List.foldl_cons, ih (kcStep acc g.attrs)]
    rw [mem_kcStep]
    simp [and_assoc, List.forall_mem_cons]

theorem kcFold_sublist (rest : List FlowFile) (acc : AttrMap) :
    List.Sublist (rest.foldl (fun acc g => kcStep acc g.attrs) acc) acc := by
  induction rest generalizing acc with
  | nil => exact List.Sublist.refl acc
  | cons g t ih =>
    exact List.Sublist.trans (ih (kcStep acc g.attrs)) (List.filter_sublist acc)

theorem kcMerged_mem (flows : List FlowFile) (hne : flows ≠ []) (p : String × String) :
    p ∈ kcMerged flows ↔ ∀ f ∈ flows, p ∈ f.attrs := by
  match flows with
  | [] => exact absurd rfl hne
  | f :: rest =>
    rw [kcMerged, mem_kcFold]
    simp [List.forall_mem_cons]

theorem kcMerged_pairwise (flows : List FlowFile) (hne : flows ≠ [])
    (hs : ∀ f ∈ flows, f.attrs.Pairwise keyLT) :
    (kcMerged flows).Pairwise keyLT := by
  match flows with
  | [] => exact absurd rfl hne
  | f :: rest =>
    rw [kcMerged]
    exact List.Pairwise.sublist (kcFold_sublist rest f.attrs)
      (hs f (List.mem_cons_self f rest))

/-- C4: under Keep-Common with key-ordered member attribute maps (the
`std::map` invariant), the merged map is exactly the set of (key, value)
pairs carried by every member, and any permutation of the member sequence
yields the identical merged map. -/
theorem kc_intersection_perm (flows flows' : List FlowFile)
    (hne : flows ≠ []) (hperm : flows'.Perm flows)
    (hs : ∀ f ∈ flows, f.attrs.Pairwise keyLT) :
    (∀ p, p ∈ kcMerged flows ↔ ∀ f ∈ flows, p ∈ f.attrs) ∧
    kcMerged flows' = kcMerged flows := by
  have hne' : flows' ≠ [] := by
    intro h0
    rw [h0] at hperm
    exact hne (List.nil_perm.mp hperm)
  have hs' : ∀ f ∈ flows', f.attrs.Pairwise keyLT :=
    fun f hf => hs f (hperm.mem_iff.mp hf)
  have hmem : ∀ p, p ∈ kcMerged flows' ↔ p ∈ kcMerged flows := by
    intro p
    rw [kcMerged_mem flows hne p, kcMerged_mem flows' hne' p]
    exact ⟨fun h f hf => h f (hperm.mem_iff.mpr hf),
      fun h f hf => h f (hperm.mem_iff.mp hf)⟩
  have hp₁ := kcMerged_pairwise flows hne hs
  have hp₂ := kcMerged_pairwise flows' hne' hs'
  have hnd₁ : (kcMerged flows).Nodup :=
    hp₁.imp (fun h => fun he => absurd (he ▸ h) (lt_irrefl _))
  have hnd₂ : (kcMerged flows').Nodup :=
    hp₂.imp (fun h => fun he => absurd (he ▸ h) (lt_irrefl _))
  refine ⟨kcMerged_mem flows hne, ?_⟩
  exact List.eq_of_perm_of_sorted
    ((List.perm_ext_iff_of_nodup hnd₂ hnd₁).mpr hmem) hp₂ hp₁

/-- Witness for `kc_intersection_perm` at a concrete two-member bin and its
swap. -/
theorem kc_intersection_perm_witness :
    (([⟨[("a", "1"), ("b", "2")]⟩, ⟨[("a", "1"), ("c", "3")]⟩] : List FlowFile) ≠ [] ∧
      ([⟨[("a", "1"), ("c", "3")]⟩, ⟨[("a", "1"), ("b", "2")]⟩] : List FlowFile).Perm
        [⟨[("a", "1"), ("b", "2")]⟩, ⟨[("a", "1"), ("c", "3")]⟩] ∧
      ∀ f ∈ ([⟨[("a", "1"), ("b", "2")]⟩, ⟨[("a", "1"), ("c", "3")]⟩] : List FlowFile),
        f.attrs.Pairwise keyLT) ∧
    ((∀ p, p ∈ kcMerged [⟨[("a", "1"), ("b", "2")]⟩, ⟨[("a", "1"), ("c", "3")]⟩] ↔
        ∀ f ∈ ([⟨[("a", "1"), ("b", "2")]⟩, ⟨[("a", "1"), ("c", "3")]⟩] : List FlowFile),
          p ∈ f.attrs) ∧
      kcMerged [⟨[("a", "1"), ("c", "3")]⟩, ⟨[("a", "1"), ("b", "2")]⟩] =
        kcMerged [⟨[("a", "1"), ("b", "2")]⟩, ⟨[("a", "1"), ("c", "3")]⟩]) := by
  have hab : ("a" : String) < "b" := String.lt_iff_toList_lt.mpr (by decide)
  have hac : ("a" : String) < "c" := String.lt_iff_toList_lt.mpr (by decide)
  have hs : ∀ f ∈ ([⟨[("a", "1"), ("b", "2")]⟩, ⟨[("a", "1"), ("c", "3")]⟩] : List FlowFile),
      f.attrs.Pairwise keyLT := by
    intro f hf
    rcases List.mem_cons.mp hf with rfl | hf'
    · simpa [List.pairwise_cons, keyLT] using hab
    · rcases List.mem_cons.mp hf' with rfl | hf''
      · simpa [List.pairwise_cons, keyLT] using hac
      · exact absurd hf'' (List.not_mem_nil f)
  exact ⟨⟨by decide, by decide, hs⟩,
    kc_intersection_perm _ _ (by decide) (by decide) hs⟩

/-- Two members sharing fragment index 0 in a bin of count 1, distinguished
by an unrelated tag attribute; arrival order is `dupFlowA` first. -/
def dupFlowA : FlowFile :=
  ⟨[("fragment.count", "1"), ("fragment.identifier", "x"), ("fragment.index", "0"),
    ("tag", "a")]⟩

/-- See `dupFlowA`. -/
def dupFlowB : FlowFile :=
  ⟨[("fragment.count", "1"), ("fragment.identifier", "x"), ("fragment.index", "0"),
    ("tag", "b")]⟩

/-- C1 counterexample: the bin `[dupFlowA, dupFlowB]` passes validation, and
the `std::sort` contract (`sortPost`) admits the outcome `[dupFlowB, dupFlowA]`,
which is not arrival-stable: the equal-index members appear in reversed
arrival order (witnessed by the filter at index 0).  `std::sort`, unlike
`std::stable_sort`, guarantees no tie-break, so the claimed stability is not a
property of the code. -/
theorem processBin_sort_not_stable :
    checkDefragment [dupFlowA, dupFlowB] = true ∧
    sortPost [dupFlowA, dupFlowB] [dupFlowB, dupFlowA] ∧
    ¬ (∀ k : Int,
        ([dupFlowB, dupFlowA].filter (fun f => decide (fragIndexD f = k))) =
        ([dupFlowA, dupFlowB].filter (fun f => decide (fragIndexD f = k)))) := by
  refine ⟨by decide, ⟨by decide, by decide⟩, ?_⟩
  intro h
  exact absurd (h 0) (by decide)

instance : IsAntisymm FlowFile (fun a b => fragIndexD a < fragIndexD b) :=
  ⟨fun _ _ h h' => absurd (lt_trans h h') (lt_irrefl _)⟩

/-- C1 amended: for a validated Defragment bin, `processBin` orders the
members ascending by fragment index (the `std::sort` postcondition), and when
the fragment indices are pairwise distinct this determines the resulting
order uniquely; with duplicate indices the relative order of equal-index
members is unspecified rather than arrival-stable. -/
theorem processBin_sort_unique (input out₁ out₂ : List FlowFile)
    (hchk : checkDefragment input = true)
    (hd : input.Pairwise (fun a b => fragIndexD a ≠ fragIndexD b))
    (h₁ : sortPost input out₁) (h₂ : sortPost input out₂) :
    out₁ = out₂ := by
  have hd₁ := (List.Perm.pairwise_iff (fun h => Ne.symm h) h₁.1).mpr hd
  have hd₂ := (List.Perm.pairwise_iff (fun h => Ne.symm h) h₂.1).mpr hd
  have hstrict₁ : out₁.Pairwise (fun a b => fragIndexD a < fragIndexD b) :=
    (h₁.2.and hd₁).imp (fun h => lt_of_le_of_ne h.1 h.2)
  have hstrict₂ : out₂.Pairwise (fun a b => fragIndexD a < fragIndexD b) :=
    (h₂.2.and hd₂).imp (fun h => lt_of_le_of_ne h.1 h.2)
  exact List.eq_of_perm_of_sorted (h₁.1.trans h₂.1.symm) hstrict₁ hstrict₂

/-- Distinct-index members for the `processBin_sort_unique` witness. -/
def fragFlowA : FlowFile :=
  ⟨[("fragment.count", "2"), ("fragment.identifier", "x"), ("fragment.index", "0")]⟩

/-- See `fragFlowA`. -/
def fragFlowB : FlowFile :=
  ⟨[("fragment.count", "2"), ("fragment.identifier", "x"), ("fragment.index", "1")]⟩

/-- Witness for `processBin_sort_unique` at a concrete validated bin with
distinct indices. -/
theorem processBin_sort_unique_witness :
    checkDefragment [fragFlowA, fragFlowB] = true ∧
    ([fragFlowA, fragFlowB] : List FlowFile).Pairwise
      (fun a b => fragIndexD a ≠ fragIndexD b) ∧
    sortPost [fragFlowA, fragFlowB] [fragFlowA, fragFlowB] ∧
    ([fragFlowA, fragFlowB] : List FlowFile) = [fragFlowA, fragFlowB] := by
  have hsp : sortPost [fragFlowA, fragFlowB] [fragFlowA, fragFlowB] :=
    ⟨by decide, by decide⟩
  exact ⟨by decide, by decide, hsp,
    processBin_sort_unique [fragFlowA, fragFlowB] [fragFlowA, fragFlowB]
      [fragFlowA, fragFlowB] (by decide) (by decide) hsp hsp⟩

theorem lookupA_mput_self (m : AttrMap) (k v : String) :
    lookupA (mput m k v) k = some v := by
  induction m with
  | nil => simp [mput, lookupA]
  | cons q rest ih =>
    rcases q with ⟨k1, v1⟩
    by_cases h : k1 = k <;> simp [mput, lookupA, h, ih]

theorem lookupA_mput_ne (m : AttrMap) {k k' : String} (h : k' ≠ k) (v : String) :
    lookupA (mput m k' v) k = lookupA m k := by
  induction m with
  | nil => simp [mput, lookupA, h]
  | cons q rest ih =>
    rcases q with ⟨k1, v1⟩
    by_cases h1 : k1 = k'
    · subst h1
      simp [mput, lookupA, h]
    · by_cases h2 : k1 = k
      · have hkk : k ≠ k' := fun he => h he.symm
        simp [mput, lookupA, h1, h2, hkk]
      · simp [mput, lookupA, h1, h2, ih]

/-- A two-member bin whose members agree on the filename attribute and carry
no segment original filename attribute. -/
def fnFlow : FlowFile := ⟨[("filename", "f")]⟩

/-- C8 counterexample: for the bin `[fnFlow, fnFlow]` the derivation the
claim describes yields the empty name (no segment original filename on the
first member), so the claim says no filename attribute is set; yet after
Keep-Common populated the merge flow with filename f, `TarMerge` emits
filename `f.tar` — differing from the concatenation format result on the
same input, so the derivation is not uniform across formats either. -/
theorem merge_filename_counterexample :
    (getAttribute fnFlow SEGMENT_ORIGINAL_FILENAME = none ∧
      kcMerged [fnFlow, fnFlow] = [("filename", "f")]) ∧
    lookupA (tarMergeAttrs [fnFlow, fnFlow] (kcMerged [fnFlow, fnFlow]))
      FILENAME_ATTRIBUTE = some "f.tar" ∧
    lookupA (tarMergeAttrs [fnFlow, fnFlow] (kcMerged [fnFlow, fnFlow]))
      FILENAME_ATTRIBUTE ≠ none ∧
    lookupA (tarMergeAttrs [fnFlow, fnFlow] (kcMerged [fnFlow, fnFlow]))
      FILENAME_ATTRIBUTE ≠
        lookupA (kcMerged [fnFlow, fnFlow]) FILENAME_ATTRIBUTE ∧
    lookupA (concatMergeAttrs [fnFlow, fnFlow] (kcMerged [fnFlow, fnFlow]))
      FILENAME_ATTRIBUTE = some "f" := by
  refine ⟨⟨by decide, by decide⟩, by decide, by decide, by decide, by decide⟩

/-- The claim-side derived name for the concatenation format: the single
member filename attribute, or the first member segment original filename
attribute, empty when absent. -/
def concatDerivedName : List FlowFile → String
  | [] => ""
  | front :: rest =>
    if (front :: rest).length == 1 then (getAttribute front FILENAME_ATTRIBUTE).getD ""
    else (getAttribute front SEGMENT_ORIGINAL_FILENAME).getD ""

/-- The amended derived name for the archive formats: as
`concatDerivedName`, except that an absent member attribute falls back to the
filename attribute already present on the merge flow. -/
def archiveDerivedName (flows : List FlowFile) (m : AttrMap) : String :=
  match flows with
  | [] => (lookupA m FILENAME_ATTRIBUTE).getD ""
  | front :: rest =>
    let base := (lookupA m FILENAME_ATTRIBUTE).getD ""
    if (front :: rest).length == 1 then (getAttribute front FILENAME_ATTRIBUTE).getD base
    else (getAttribute front SEGMENT_ORIGINAL_FILENAME).getD base

theorem lookupA_putName (m₁ m : AttrMap) (fn : String)
    (hmime : lookupA m₁ FILENAME_ATTRIBUTE = lookupA m FILENAME_ATTRIBUTE) :
    lookupA (if fn ≠ "" then mput m₁ FILENAME_ATTRIBUTE fn else m₁) FILENAME_ATTRIBUTE =
      if fn = "" then lookupA m FILENAME_ATTRIBUTE else some fn := by
  by_cases hf : fn = "" <;> simp [hf, lookupA_mput_self, hmime]

theorem lookupA_putNameSuffix (m₁ m : AttrMap) (fn suffix : String)
    (hmime : lookupA m₁ FILENAME_ATTRIBUTE = lookupA m FILENAME_ATTRIBUTE) :
    lookupA (if fn ≠ "" then mput m₁ FILENAME_ATTRIBUTE (fn ++ suffix) else m₁)
        FILENAME_ATTRIBUTE =
      if fn = "" then lookupA m FILENAME_ATTRIBUTE else some (fn ++ suffix) := by
  by_cases hf : fn = "" <;> simp [hf, lookupA_mput_self, hmime]

/-- C8 amended: the merged filename on the MergeResult, per format: under
concatenation the claim-described derivation stands (name set exactly when
the derived name is non-empty, the attribute map untouched at that key
otherwise); under Tar and Zip the derivation additionally falls back to the
filename attribute already present on the merge flow, and the suffix is appended to
the name actually derived, the filename attribute again left untouched only
when that name is empty. -/
theorem merge_filename_characterization (flows : List FlowFile) (m : AttrMap)
    (hne : flows ≠ []) :
    lookupA (concatMergeAttrs flows m) FILENAME_ATTRIBUTE =
      (if concatDerivedName flows = "" then lookupA m FILENAME_ATTRIBUTE
       else some (concatDerivedName flows)) ∧
    lookupA (tarMergeAttrs flows m) FILENAME_ATTRIBUTE =
      (if archiveDerivedName flows m = "" then lookupA m FILENAME_ATTRIBUTE
       else some (archiveDerivedName flows m ++ ".tar")) ∧
    lookupA (zipMergeAttrs flows m) FILENAME_ATTRIBUTE =
      (if archiveDerivedName flows m = "" then lookupA m FILENAME_ATTRIBUTE
       else some (archiveDerivedName flows m ++ ".zip")) := by
  match flows with
  | [] => exact absurd rfl hne
  | front :: rest =>
    have hnefn : MIME_TYPE_ATTRIBUTE ≠ FILENAME_ATTRIBUTE := by decide
    have hmc : lookupA (mput m MIME_TYPE_ATTRIBUTE "application/octet-stream")
        FILENAME_ATTRIBUTE = lookupA m FILENAME_ATTRIBUTE := lookupA_mput_ne m hnefn _
    have hmt : lookupA (mput m MIME_TYPE_ATTRIBUTE "application/tar")
        FILENAME_ATTRIBUTE = lookupA m FILENAME_ATTRIBUTE := lookupA_mput_ne m hnefn _
    have hmz : lookupA (mput m MIME_TYPE_ATTRIBUTE "application/zip")
        FILENAME_ATTRIBUTE = lookupA m FILENAME_ATTRIBUTE := lookupA_mput_ne m hnefn _
    refine ⟨?_, ?_, ?_⟩
    · simp only [concatMergeAttrs, concatDerivedName]
      exact lookupA_putName _ m _ hmc
    · simp only [tarMergeAttrs, archiveMergeAttrs, archiveDerivedName, hmt]
      rw [lookupA_putNameSuffix _ m _ _ hmt]
    · simp only [zipMergeAttrs, archiveMergeAttrs, archiveDerivedName, hmz]
      rw [lookupA_putNameSuffix _ m _ _ hmz]

/-- Witness for `merge_filename_characterization` at the counterexample bin. -/
theorem merge_filename_characterization_witness :
    (([fnFlow, fnFlow] : List FlowFile) ≠ []) ∧
    (lookupA (concatMergeAttrs [fnFlow, fnFlow] [("filename", "f")]) FILENAME_ATTRIBUTE =
      (if concatDerivedName [fnFlow, fnFlow] = ""
       then lookupA [("filename", "f")] FILENAME_ATTRIBUTE
       else some (concatDerivedName [fnFlow, fnFlow])) ∧
    lookupA (tarMergeAttrs [fnFlow, fnFlow] [("filename", "f")]) FILENAME_ATTRIBUTE =
      (if archiveDerivedName [fnFlow, fnFlow] [("filename", "f")] = ""
       then lookupA [("filename", "f")] FILENAME_ATTRIBUTE
       else some (archiveDerivedName [fnFlow, fnFlow] [("filename", "f")] ++ ".tar")) ∧
    lookupA (zipMergeAttrs [fnFlow, fnFlow] [("filename", "f")]) FILENAME_ATTRIBUTE =
      (if archiveDerivedName [fnFlow, fnFlow] [("filename", "f")] = ""
       then lookupA [("filename", "f")] FILENAME_ATTRIBUTE
       else some (archiveDerivedName [fnFlow, fnFlow] [("filename", "f")] ++ ".zip"))) :=
  ⟨by decide, merge_filename_characterization [fnFlow, fnFlow] [("filename", "f")] (by decide)⟩

theorem processBinWith_success_eq (cfg : Config) (bin : Bin) (flows' : List FlowFile)
    (ma : AttrMap)
    (hstrat : cfg.mergeStrategy = MERGE_STRATEGY_BIN_PACK ∨
      (cfg.mergeStrategy = MERGE_STRATEGY_DEFRAGMENT ∧ checkDefragment bin.flows = true))
    (ha : mergedAttrsFor cfg.attributeStrategy flows' = some ma)
    (hfmt : cfg.mergeFormat = MERGE_FORMAT_CONCAT_VALUE ∨
      cfg.mergeFormat = MERGE_FORMAT_TAR_VALUE ∨ cfg.mergeFormat = MERGE_FORMAT_ZIP_VALUE) :
    processBinWith cfg bin flows' false =
      ⟨true,
       (TargetFlow.mergeResult, Rel.merged) ::
         flows'.map (fun f => (TargetFlow.member f, Rel.original)),
       mput (formatAttrs cfg.mergeFormat flows' ma) FRAGMENT_COUNT_ATTRIBUTE
         (toString bin.getSize)⟩ := by
  have h1 : ¬(cfg.mergeStrategy ≠ MERGE_STRATEGY_DEFRAGMENT ∧
      cfg.mergeStrategy ≠ MERGE_STRATEGY_BIN_PACK) := by
    rcases hstrat with hs | ⟨hs, _⟩ <;> simp [hs]
  have h2 : ¬(cfg.mergeStrategy = MERGE_STRATEGY_DEFRAGMENT ∧
      ¬(checkDefragment bin.flows = true)) := by
    rcases hstrat with hs | ⟨hs, hchk⟩
    · simp [hs, MERGE_STRATEGY_BIN_PACK, MERGE_STRATEGY_DEFRAGMENT]
    · simp [hs, hchk]
  have h3 : ¬(cfg.mergeFormat ≠ MERGE_FORMAT_CONCAT_VALUE ∧
      cfg.mergeFormat ≠ MERGE_FORMAT_TAR_VALUE ∧
      cfg.mergeFormat ≠ MERGE_FORMAT_ZIP_VALUE) := by
    rcases hfmt with hf | hf | hf <;> simp [hf]
  simp only [processBinWith, if_neg h1, if_neg h2, ha, if_neg h3, Bool.false_eq_true,
    if_false]

theorem processBinWith_ioFail_eq (cfg : Config) (bin : Bin) (flows' : List FlowFile)
    (ma : AttrMap)
    (hstrat : cfg.mergeStrategy = MERGE_STRATEGY_BIN_PACK ∨
      (cfg.mergeStrategy = MERGE_STRATEGY_DEFRAGMENT ∧ checkDefragment bin.flows = true))
    (ha : mergedAttrsFor cfg.attributeStrategy flows' = some ma)
    (hfmt : cfg.mergeFormat = MERGE_FORMAT_CONCAT_VALUE ∨
      cfg.mergeFormat = MERGE_FORMAT_TAR_VALUE ∨ cfg.mergeFormat = MERGE_FORMAT_ZIP_VALUE) :
    processBinWith cfg bin flows' true = ⟨false, [], ma⟩ := by
  have h1 : ¬(cfg.mergeStrategy ≠ MERGE_STRATEGY_DEFRAGMENT ∧
      cfg.mergeStrategy ≠ MERGE_STRATEGY_BIN_PACK) := by
    rcases hstrat with hs | ⟨hs, _⟩ <;> simp [hs]
  have h2 : ¬(cfg.mergeStrategy = MERGE_STRATEGY_DEFRAGMENT ∧
      ¬(checkDefragment bin.flows = true)) := by
    rcases hstrat with hs | ⟨hs, hchk⟩
    · simp [hs, MERGE_STRATEGY_BIN_PACK, MERGE_STRATEGY_DEFRAGMENT]
    · simp [hs, hchk]
  have h3 : ¬(cfg.mergeFormat ≠ MERGE_FORMAT_CONCAT_VALUE ∧
      cfg.mergeFormat ≠ MERGE_FORMAT_TAR_VALUE ∧
      cfg.mergeFormat ≠ MERGE_FORMAT_ZIP_VALUE) := by
    rcases hfmt with hf | hf | hf <;> simp [hf]
  simp only [processBinWith, if_neg h1, if_neg h2, ha, if_neg h3, if_true]

theorem mergedAttrsFor_isSome (as' : String) (flows' : List FlowFile)
    (hattr : as' = ATTRIBUTE_STRATEGY_KEEP_COMMON ∨
      as' = ATTRIBUTE_STRATEGY_KEEP_ALL_UNIQUE) :
    ∃ ma, mergedAttrsFor as' flows' = some ma := by
  rcases hattr with ha | ha <;>
    simp [mergedAttrsFor, ha, ATTRIBUTE_STRATEGY_KEEP_COMMON,
      ATTRIBUTE_STRATEGY_KEEP_ALL_UNIQUE]

/-- C6: when the content-assembly step raises no exception, `processBin` puts
the fragment count attribute — the member count of the originating bin — on
the MergeResult, transfers the MergeResult to the merged relationship,
transfers every consumed member to the original relationship, and returns
true. -/
theorem processBin_success (cfg : Config) (bin : Bin) (res : ProcessBinResult)
    (hstrat : cfg.mergeStrategy = MERGE_STRATEGY_BIN_PACK ∨
      (cfg.mergeStrategy = MERGE_STRATEGY_DEFRAGMENT ∧ checkDefragment bin.flows = true))
    (hattr : cfg.attributeStrategy = ATTRIBUTE_STRATEGY_KEEP_COMMON ∨
      cfg.attributeStrategy = ATTRIBUTE_STRATEGY_KEEP_ALL_UNIQUE)
    (hfmt : cfg.mergeFormat = MERGE_FORMAT_CONCAT_VALUE ∨
      cfg.mergeFormat = MERGE_FORMAT_TAR_VALUE ∨ cfg.mergeFormat = MERGE_FORMAT_ZIP_VALUE)
    (hrel : ProcessBinRel cfg bin false res) :
    res.ok = true ∧
    lookupA res.mergeAttrs FRAGMENT_COUNT_ATTRIBUTE = some (toString bin.flows.length) ∧
    (TargetFlow.mergeResult, Rel.merged) ∈ res.transfers ∧
    ∀ f ∈ bin.flows, (TargetFlow.member f, Rel.original) ∈ res.transfers := by
  obtain ⟨flows', hsort, hres⟩ := hrel
  have hperm : flows'.Perm bin.flows := by
    by_cases hc : cfg.mergeStrategy = MERGE_STRATEGY_DEFRAGMENT ∧
        checkDefragment bin.flows = true
    · rw [if_pos hc] at hsort
      exact hsort.1
    · rw [if_neg hc] at hsort
      exact hsort ▸ List.Perm.refl _
  obtain ⟨ma, hma⟩ := mergedAttrsFor_isSome cfg.attributeStrategy flows' hattr
  rw [hres, processBinWith_success_eq cfg bin flows' ma hstrat hma hfmt]
  refine ⟨rfl, ?_, List.mem_cons_self _ _, ?_⟩
  · simpa [Bin.getSize] using lookupA_mput_self (formatAttrs cfg.mergeFormat flows' ma)
      FRAGMENT_COUNT_ATTRIBUTE (toString bin.getSize)
  · intro f hf
    exact List.mem_cons_of_mem _
      (List.mem_map_of_mem _ (hperm.mem_iff.mpr hf))

/-- The Bin-Packing, concatenation, Keep-Common configuration used by the
`processBin` witnesses. -/
def cfgBC : Config :=
  ⟨MERGE_STRATEGY_BIN_PACK, MERGE_FORMAT_CONCAT_VALUE, ATTRIBUTE_STRATEGY_KEEP_COMMON⟩

/-- A one-member bin for the `processBin` witnesses. -/
def binW : Bin := ⟨[⟨[("filename", "g")]⟩]⟩

/-- Witness for `processBin_success` at a concrete configuration and bin. -/
theorem processBin_success_witness :
    ProcessBinRel cfgBC binW false (processBinWith cfgBC binW binW.flows false) ∧
    ((processBinWith cfgBC binW binW.flows false).ok = true ∧
     lookupA (processBinWith cfgBC binW binW.flows false).mergeAttrs
       FRAGMENT_COUNT_ATTRIBUTE = some (toString binW.flows.length) ∧
     (TargetFlow.mergeResult, Rel.merged) ∈
       (processBinWith cfgBC binW binW.flows false).transfers ∧
     ∀ f ∈ binW.flows, (TargetFlow.member f, Rel.original) ∈
       (processBinWith cfgBC binW binW.flows false).transfers) := by
  have hrel : ProcessBinRel cfgBC binW false (processBinWith cfgBC binW binW.flows false) :=
    ⟨binW.flows, by rw [if_neg (by decide)], rfl⟩
  exact ⟨hrel, processBin_success cfgBC binW _ (Or.inl rfl) (Or.inl rfl) (Or.inl rfl) hrel⟩

/-- C7: when `session->write` inside the content assembly throws, the catch
block of `processBin` makes it return false with nothing transferred — no
MergeResult reaches the merged relationship, no member reaches the original
relationship — and the caller (spec-modelled `routeBinOnFailure`) routes
every consumed member to failure exactly once, never re-offering the bin. -/
theorem processBin_ioFailure (cfg : Config) (bin : Bin) (res : ProcessBinResult)
    (hstrat : cfg.mergeStrategy = MERGE_STRATEGY_BIN_PACK ∨
      (cfg.mergeStrategy = MERGE_STRATEGY_DEFRAGMENT ∧ checkDefragment bin.flows = true))
    (hattr : cfg.attributeStrategy = ATTRIBUTE_STRATEGY_KEEP_COMMON ∨
      cfg.attributeStrategy = ATTRIBUTE_STRATEGY_KEEP_ALL_UNIQUE)
    (hfmt : cfg.mergeFormat = MERGE_FORMAT_CONCAT_VALUE ∨
      cfg.mergeFormat = MERGE_FORMAT_TAR_VALUE ∨ cfg.mergeFormat = MERGE_FORMAT_ZIP_VALUE)
    (hrel : ProcessBinRel cfg bin true res) :
    res.ok = false ∧ res.transfers = [] ∧
    routeBinOnFailure bin res =
      bin.flows.map (fun f => (TargetFlow.member f, Rel.failure)) := by
  obtain ⟨flows', _, hres⟩ := hrel
  obtain ⟨ma, hma⟩ := mergedAttrsFor_isSome cfg.attributeStrategy flows' hattr
  rw [hres, processBinWith_ioFail_eq cfg bin flows' ma hstrat hma hfmt]
  exact ⟨rfl, rfl, by simp [routeBinOnFailure]⟩

/-- Witness for `processBin_ioFailure` at a concrete configuration and bin. -/
theorem processBin_ioFailure_witness :
    ProcessBinRel cfgBC binW true (processBinWith cfgBC binW binW.flows true) ∧
    ((processBinWith cfgBC binW binW.flows true).ok = false ∧
     (processBinWith cfgBC binW binW.flows true).transfers = [] ∧
     routeBinOnFailure binW (processBinWith cfgBC binW binW.flows true) =
       binW.flows.map (fun f => (TargetFlow.member f, Rel.failure))) := by
  have hrel : ProcessBinRel cfgBC binW true (processBinWith cfgBC binW binW.flows true) :=
    ⟨binW.flows, by rw [if_neg (by decide)], rfl⟩
  exact ⟨hrel, processBin_ioFailure cfgBC binW _ (Or.inl rfl) (Or.inl rfl) (Or.inl rfl) hrel⟩

end MergeContent
